import Mathlib

/-!
Verification of the statistics core of `PLOTTING_SCRIPTS/create_correlation_matrix.py`.

The Python module builds four association matrices (pairwise / adjusted
effect sizes and p-values) over a list of measures of a data frame, plus
plotting masks and significance markers.  We embed the data model and the
control flow of the source shallowly:

* a data frame is a map from column names to columns of rationals;
* the external numerical routines (statsmodels `ols`/`logit` fits, `np.exp`,
  the square root and the p-value transform inside `scipy.stats.pearsonr`)
  are opaque to the source, so they are embedded as an environment `Env` of
  function parameters;
* the Pearson correlation statistic itself is embedded by its mathematical
  formula over ℚ (numerator and squared denominator are exact; the square
  root is the environment's `sq`);
* Python exceptions become `Except` values: a raised exception is `.error`,
  and `do`-sequencing mirrors the fact that an exception aborts the
  enclosing computation.
-/

/-- A data frame: each column name yields the list of observed values.
Missing values are not modelled (all example data is complete). -/
def Df : Type := String → List ℚ

/-- `df[y].nunique()`: the number of distinct values of column `y`. -/
def nunique (df : Df) (y : String) : ℕ := (df y).dedup.length

/-- The interface of a fitted statsmodels model, as used by the source:
`params` and `pvalues` are indexed by predictor name, `resid` is the
residual sequence (used only for OLS fits inside the partial
correlation). -/
structure FitRes where
  params  : String → ℚ
  pvalues : String → ℚ
  resid   : List ℚ

/-- The failures the source can propagate: a failed model fit
(`ModelFitError`) or too little data for a Pearson correlation
(`InsufficientDataError`). -/
inductive StatErr where
  | modelFitError : StatErr
  | insufficientDataError : StatErr
deriving DecidableEq

/-- The external numerical routines called by the source.  They are library
code (statsmodels / numpy / scipy), not part of this repository, so they are
embedded as abstract function parameters:
`olsFit f df` is `ols(f, df).fit()`, `logitFit f df` is `logit(f, df).fit()`
(either may raise, hence `Except`), `exp` is `np.exp` on a single
coefficient, `sq` is the square root used in the Pearson denominator and
`pOfR r n` is the p-value `scipy.stats.pearsonr` derives from the
correlation `r` and the sample size `n`. -/
structure Env where
  olsFit   : String → Df → Except StatErr FitRes
  logitFit : String → Df → Except StatErr FitRes
  exp      : ℚ → ℚ
  sq       : ℚ → ℚ
  pOfR     : ℚ → ℕ → ℚ

/-- `' + '.join(l)`. -/
def joinPlus (l : List String) : String := String.intercalate " + " l

/-- The mean of a list of rationals (`0` for the empty list). -/
def mean (xs : List ℚ) : ℚ := xs.sum / (xs.length : ℚ)

/-- A list with its mean subtracted from every element. -/
def centeredList (xs : List ℚ) : List ℚ := xs.map (fun v => v - mean xs)

/-- Numerator of the Pearson correlation: the sum of products of paired
centered values. -/
def pearsonNum (xs ys : List ℚ) : ℚ :=
  (List.zipWith (fun a b => a * b) (centeredList xs) (centeredList ys)).sum

/-- Squared denominator contribution of one variable: its sum of squared
deviations. -/
def pearsonDen (xs : List ℚ) : ℚ :=
  ((centeredList xs).map (fun v => v * v)).sum

/-- The Pearson correlation coefficient
`r = Σ dx·dy / sqrt(Σ dx² · Σ dy²)`, with the square root supplied by the
environment. -/
def pearsonR (env : Env) (xs ys : List ℚ) : ℚ :=
  pearsonNum xs ys / env.sq (pearsonDen xs * pearsonDen ys)

/-- Modelled from the spec: `scipy.stats.pearsonr` is scipy library code,
not part of this repository; per the spec it fails with an
`InsufficientDataError` when the sequences have fewer than 3 paired
observations, and otherwise returns the correlation coefficient together
with its p-value. -/
def pearsonr (env : Env) (xs ys : List ℚ) : Except StatErr (ℚ × ℚ) :=
  if xs.length < 3 ∨ ys.length < 3 then .error .insufficientDataError
  else .ok (pearsonR env xs ys, env.pOfR (pearsonR env xs ys) xs.length)

/-- `[ z for z in measures if not z == x and not z == y ]`. -/
def covarsOf (x y : String) (measures : List String) : List String :=
  measures.filter (fun z => !(z == x) && !(z == y))

/-- Embedding of the source's partial-correlation function
(`create_correlation_matrix.py`, lines 121-155): drop `x` and `y` from the
measures, regress each of `x` and `y` on the remaining covariates by OLS,
and return the Pearson correlation of the two residual sequences.
(The name avoids the keyword-like prefix of the Python name
`partial_correlation`.) -/
def part_correlation (env : Env) (df : Df) (x y : String)
    (measures : List String) : Except StatErr (ℚ × ℚ) := do
  let covars := covarsOf x y measures
  let formula_x := x ++ " ~ " ++ joinPlus covars
  let formula_y := y ++ " ~ " ++ joinPlus covars
  let lm_x ← env.olsFit formula_x df
  let lm_y ← env.olsFit formula_y df
  pearsonr env lm_x.resid lm_y.resid

/-- Embedding of `fit_model` (lines 105-117): a logistic regression when the
outcome column has exactly 2 distinct values, an OLS regression
otherwise. -/
def fit_model (env : Env) (y : String) (formula : String) (df : Df) :
    Except StatErr FitRes :=
  if nunique df y = 2 then env.logitFit formula df else env.olsFit formula df

/-- A matrix as a list of rows. -/
abbrev Mat : Type := List (List ℚ)

/-- Row `i` of a matrix (empty when out of range). -/
def rowOf (m : Mat) (i : ℕ) : List ℚ := (m.get? i).getD []

/-- Cell `(i, j)` of a matrix (`0` when out of range). -/
def getCell (m : Mat) (i j : ℕ) : ℚ := ((rowOf m i).get? j).getD 0

/-- Overwrite cell `(i, j)` (no-op out of range, like every in-range numpy
write the source performs). -/
def setCell (m : Mat) (i j : ℕ) (v : ℚ) : Mat :=
  m.set i ((rowOf m i).set j v)

/-- `np.ones([n, n])`. -/
def onesMat (n : ℕ) : Mat := List.replicate n (List.replicate n (1 : ℚ))

/-- The four matrices returned by `calc_stats`. -/
structure Mats where
  pairP  : Mat
  pairES : Mat
  partP  : Mat
  partES : Mat

/-- Embedding of `setup_arrays` (lines 78-101): four square matrices of
ones, one per statistic. -/
def setup_arrays (measures : List String) : Mats :=
  let o := onesMat measures.length
  ⟨o, o, o, o⟩

/-- The full-model formula of row `y`:
`'{} ~ {}'.format(y, ' + '.join([x for x in measures if not x == y]))`. -/
def fullFormula (measures : List String) (y : String) : String :=
  y ++ " ~ " ++ joinPlus (measures.filter (fun z => !(z == y)))

/-- The pairwise formula `'{} ~ {}'.format(y, x)`. -/
def pairFormula (y x : String) : String := y ++ " ~ " ++ x

/-- The four values `calc_stats` computes for one off-diagonal cell, in the
order (pairP, pairES, partP, partES): fit the pairwise model, read both
p-values, then dispatch on the kind of `y` for the effect sizes
(lines 58-72). -/
def cellVals (env : Env) (df : Df) (measures : List String) (lm_all : FitRes)
    (y x : String) : Except StatErr (ℚ × ℚ × ℚ × ℚ) := do
  let lm_pair ← fit_model env y (pairFormula y x) df
  if nunique df y = 2 then
    pure (lm_pair.pvalues x, env.exp (lm_pair.params x),
          lm_all.pvalues x, env.exp (lm_all.params x))
  else do
    let pr ← pearsonr env (df x) (df y)
    let pc ← part_correlation env df x y measures
    pure (lm_pair.pvalues x, pr.1, lm_all.pvalues x, pc.1)

/-- Write the four values of one cell into the four matrices. -/
def writeCell (acc : Mats) (i j : ℕ) (v : ℚ × ℚ × ℚ × ℚ) : Mats :=
  { pairP  := setCell acc.pairP i j v.1
    pairES := setCell acc.pairES i j v.2.1
    partP  := setCell acc.partP i j v.2.2.1
    partES := setCell acc.partES i j v.2.2.2 }

/-- The inner loop of `calc_stats` (`for j, x in enumerate(measures)`),
carrying the current column index: the diagonal is skipped, every other
cell is computed and written. -/
def colLoop (env : Env) (df : Df) (measures : List String) (lm_all : FitRes)
    (y : String) (i : ℕ) : ℕ → List String → Mats → Except StatErr Mats
  | _, [], acc => .ok acc
  | j, x :: rest, acc =>
    if i = j then colLoop env df measures lm_all y i (j + 1) rest acc
    else do
      let v ← cellVals env df measures lm_all y x
      colLoop env df measures lm_all y i (j + 1) rest (writeCell acc i j v)

/-- One iteration of the outer loop of `calc_stats`: fit the full model of
row `y` once, then fill all columns of row `i`. -/
def rowStep (env : Env) (df : Df) (measures : List String) (i : ℕ)
    (y : String) (acc : Mats) : Except StatErr Mats := do
  let lm_all ← fit_model env y (fullFormula measures y) df
  colLoop env df measures lm_all y i 0 measures acc

/-- The outer loop of `calc_stats` (`for i, y in enumerate(measures)`). -/
def rowLoop (env : Env) (df : Df) (measures : List String) :
    ℕ → List String → Mats → Except StatErr Mats
  | _, [], acc => .ok acc
  | i, y :: rest, acc => do
    let acc2 ← rowStep env df measures i y acc
    rowLoop env df measures (i + 1) rest acc2

/-- Embedding of `calc_stats` (lines 3-75): initialize the four matrices to
ones and run the double loop over the measures. -/
def calc_stats (env : Env) (df : Df) (measures : List String) :
    Except StatErr Mats :=
  rowLoop env df measures 0 measures (setup_arrays measures)

/-- Whether an `Except` carries a success value. -/
def exOk {ε α : Type} : Except ε α → Bool
  | .ok _ => true
  | .error _ => false

/-- `m[i, :] = 0` on an `n`-column matrix. -/
def setRowZero (m : Mat) (i n : ℕ) : Mat := m.set i (List.replicate n 0)

/-- `np.triu(np.ones([n, n]))`: ones on and above the diagonal. -/
def triuMat (n : ℕ) : Mat :=
  (List.range n).map (fun i => (List.range n).map
    (fun j => if i ≤ j then (1 : ℚ) else 0))

/-- Elementwise matrix sum. -/
def matAdd (a b : Mat) : Mat :=
  List.zipWith (fun r s => List.zipWith (fun p q => p + q) r s) a b

/-- One iteration of the kind loop of `calc_masks` (lines 278-282): zero
the row `measures.index(y)` of the odds-ratio mask when `y` is dichotomous,
of the Pearson mask otherwise.  The pair is (maskR, maskO). -/
def kindStep (df : Df) (measures : List String) (p : Mat × Mat)
    (y : String) : Mat × Mat :=
  if nunique df y = 2 then
    (p.1, setRowZero p.2 (measures.indexOf y) measures.length)
  else
    (setRowZero p.1 (measures.indexOf y) measures.length, p.2)

/-- The kind loop of `calc_masks` over the list of measures. -/
def kindLoop (df : Df) (measures : List String) (l : List String)
    (p : Mat × Mat) : Mat × Mat :=
  l.foldl (kindStep df measures) p

/-- Embedding of `calc_masks` (lines 256-297): start from all-ones masks,
zero rows by measure kind, and when `tri` is set add the upper-triangle
mask to both.  A cell is drawn only when its mask value is `0`. -/
def calc_masks (df : Df) (measures : List String) (tri : Bool) : Mat × Mat :=
  let n := measures.length
  let p := kindLoop df measures measures (onesMat n, onesMat n)
  if tri then (matAdd p.1 (triuMat n), matAdd p.2 (triuMat n)) else p

/-- The per-cell marker logic of `add_stars` (lines 376-382). -/
def add_stars_marker (p : ℚ) : String :=
  if 1/100 < p ∧ p < 5/100 then "*"
  else if 1/1000 ≤ p ∧ p < 1/100 then "**"
  else if p < 1/1000 then "***"
  else ""

/-- Example data: a continuous column `A` (3 distinct values) and a
dichotomous column `B`.  `A` and `B` are exactly uncorrelated
(`Σ dA·dB = 0`), and the data is symmetric under reflecting `A` about its
mean, which forces the slope of the logistic MLE of `B ~ A` to be `0`. -/
def dfAB : Df := fun s =>
  if s = "A" then [1, 2, 3] else if s = "B" then [0, 1, 0] else []

/-- The measure list for `dfAB`. -/
def msAB : List String := ["A", "B"]

/-- Example data: two continuous columns. -/
def dfAC : Df := fun s =>
  if s = "A" then [1, 2, 3] else if s = "C" then [1, 2, 4] else []

/-- The measure list for `dfAC`. -/
def msAC : List String := ["A", "C"]

/-- A benign concrete environment: every fit succeeds, with zero
coefficients, residuals of length 3, and an exponential that agrees with
the real one at the only coefficient produced (`exp 0 = 1`). -/
def envOK : Env :=
  { olsFit := fun _ _ => .ok ⟨fun _ => 0, fun _ => 0, [0, 0, 0]⟩
    logitFit := fun _ _ => .ok ⟨fun _ => 0, fun _ => 1, [0, 0, 0]⟩
    exp := fun q => 1 + q
    sq := fun _ => 1
    pOfR := fun _ _ => 1 }

/-- An environment whose OLS fit always fails. -/
def envBad : Env :=
  { envOK with olsFit := fun _ _ => .error .modelFitError }

/-- An environment whose OLS fits return residual sequences of length 2. -/
def envShort : Env :=
  { envOK with olsFit := fun _ _ => .ok ⟨fun _ => 0, fun _ => 0, [0, 0]⟩ }

/-- Data for the zero-covariate partial correlation run: two continuous
columns of mean 2. -/
def dfC5 : Df := fun s =>
  if s = "A" then [1, 2, 3] else if s = "B" then [3, 2, 1] else []

/-- An environment whose intercept-only OLS fits return the exact residuals
of `dfC5`: regressing a column on the constant term alone fits the mean, so
the residuals are the centered column. -/
def olsC5 : String → Df → Except StatErr FitRes := fun f _ =>
  if f = "A ~ " ++ "" then .ok ⟨fun _ => 0, fun _ => 0, [-1, 0, 1]⟩
  else .ok ⟨fun _ => 0, fun _ => 0, [1, 0, -1]⟩

/-- The environment packaging `olsC5`. -/
def envC5 : Env := { envOK with olsFit := olsC5 }

/-- The matrices of the benign run on `dfAB`. -/
def wMatsAB : Mats := (calc_stats envOK dfAB msAB).toOption.getD ⟨[], [], [], []⟩

/-- The matrices of the benign run on `dfAC`. -/
def wMatsAC : Mats := (calc_stats envOK dfAC msAC).toOption.getD ⟨[], [], [], []⟩

/-- Shape and diagonal contract of one stats matrix: square of size `n`
with every diagonal cell exactly `1`. -/
def squareOnesDiag (n : ℕ) (m : Mat) : Prop :=
  m.length = n ∧ (∀ row ∈ m, row.length = n) ∧ ∀ k, k < n → getCell m k k = 1

/-- A square matrix of size `n`, stated through indexed row access. -/
def matShape (n : ℕ) (m : Mat) : Prop :=
  m.length = n ∧ ∀ k, k < n → (rowOf m k).length = n

/-- All four matrices are square of size `n`. -/
def matsSquare (n : ℕ) (a : Mats) : Prop :=
  matShape n a.pairP ∧ matShape n a.pairES ∧ matShape n a.partP ∧
  matShape n a.partES

/-- All four matrices still hold `1` at every diagonal cell. -/
def diagOnes (n : ℕ) (a : Mats) : Prop :=
  ∀ k, k < n → getCell a.pairP k k = 1 ∧ getCell a.pairES k k = 1 ∧
    getCell a.partP k k = 1 ∧ getCell a.partES k k = 1

/-- The loop invariant of `calc_stats`: square matrices with untouched
diagonal. -/
def statsInv (n : ℕ) (a : Mats) : Prop := matsSquare n a ∧ diagOnes n a

/-- The four matrices agree at cell `(p, q)`. -/
def cellsEq (a b : Mats) (p q : ℕ) : Prop :=
  getCell a.pairP p q = getCell b.pairP p q ∧
  getCell a.pairES p q = getCell b.pairES p q ∧
  getCell a.partP p q = getCell b.partP p q ∧
  getCell a.partES p q = getCell b.partES p q

/-! ## Helper lemmas -/

/-- Reducing `Except` bind on a success value. -/
theorem okBind {α β : Type} (a : α) (k : α → Except StatErr β) :
    (Except.ok a >>= k) = k a := rfl

/-- Inversion of `Except` bind: a successful run means both stages
succeeded. -/
theorem exceptBind_ok {α β : Type} {e : Except StatErr α}
    {k : α → Except StatErr β} {b : β} (h : (e >>= k) = .ok b) :
    ∃ a, e = .ok a ∧ k a = .ok b := by
  cases e with
  | error s => exact absurd h (by simp [Bind.bind, Except.bind])
  | ok a => exact ⟨a, rfl, h⟩

/-- Subtracting a constant from every element shifts the sum by
`length * c`. -/
theorem sum_map_sub_const (xs : List ℚ) (c : ℚ) :
    (xs.map (fun v => v - c)).sum = xs.sum - xs.length * c := by
  induction xs with
  | nil => simp
  | cons a t ih =>
    simp only [List.map_cons, List.sum_cons, ih, List.length_cons]
    push_cast
    ring

/-- Centered data sums to zero. -/
theorem sum_centeredList (xs : List ℚ) : (centeredList xs).sum = 0 := by
  rcases eq_or_ne xs [] with h | h
  · simp [centeredList, h]
  · have hn : (xs.length : ℚ) ≠ 0 :=
      Nat.cast_ne_zero.mpr (fun h0 => h (List.length_eq_zero.mp h0))
    rw [centeredList, sum_map_sub_const, mean]
    field_simp

/-- Centered data has mean zero. -/
theorem mean_centeredList (xs : List ℚ) : mean (centeredList xs) = 0 := by
  rw [mean, sum_centeredList, zero_div]

/-- Centering is idempotent. -/
theorem centeredList_idem (xs : List ℚ) :
    centeredList (centeredList xs) = centeredList xs := by
  rw [show centeredList (centeredList xs) =
        (centeredList xs).map (fun v => v - mean (centeredList xs)) from rfl,
      mean_centeredList]
  simp

/-- Centering preserves length. -/
theorem length_centeredList (xs : List ℚ) :
    (centeredList xs).length = xs.length := List.length_map xs _

/-- The Pearson numerator is invariant under centering the inputs. -/
theorem pearsonNum_centered (xs ys : List ℚ) :
    pearsonNum (centeredList xs) (centeredList ys) = pearsonNum xs ys := by
  rw [pearsonNum, pearsonNum, centeredList_idem, centeredList_idem]

/-- The Pearson denominator is invariant under centering the input. -/
theorem pearsonDen_centered (xs : List ℚ) :
    pearsonDen (centeredList xs) = pearsonDen xs := by
  rw [pearsonDen, pearsonDen, centeredList_idem]

/-- The Pearson coefficient is invariant under centering both inputs. -/
theorem pearsonR_centered (env : Env) (xs ys : List ℚ) :
    pearsonR env (centeredList xs) (centeredList ys) = pearsonR env xs ys := by
  rw [pearsonR, pearsonR, pearsonNum_centered, pearsonDen_centered,
      pearsonDen_centered]

/-- The full Pearson routine is invariant under centering both inputs. -/
theorem pearsonr_centered (env : Env) (xs ys : List ℚ) :
    pearsonr env (centeredList xs) (centeredList ys) = pearsonr env xs ys := by
  rw [pearsonr, pearsonr, length_centeredList, length_centeredList,
      pearsonR_centered]

/-- The Pearson numerator is symmetric in its two inputs. -/
theorem pearsonNum_comm (xs ys : List ℚ) :
    pearsonNum xs ys = pearsonNum ys xs := by
  rw [pearsonNum, pearsonNum]
  exact congrArg List.sum
    (List.zipWith_comm_of_comm _ (fun a b => mul_comm a b) _ _)

/-- The Pearson coefficient is symmetric in its two inputs. -/
theorem pearsonR_comm (env : Env) (xs ys : List ℚ) :
    pearsonR env xs ys = pearsonR env ys xs := by
  rw [pearsonR, pearsonR, pearsonNum_comm, mul_comm]

/-! ## Claims C4, C5, C6, C9, C10 -/

/-- Claim C9: for every p-value in `[0, 1]`, the marker logic of
`add_stars` yields one star strictly between 0.01 and 0.05, two stars on
`[0.001, 0.01)`, three stars below 0.001, and no star at or above 0.05. -/
theorem add_stars_marker_mapping (p : ℚ) (h0 : 0 ≤ p) (h1 : p ≤ 1) :
    (1/100 < p ∧ p < 5/100 → add_stars_marker p = "*") ∧
    (1/1000 ≤ p ∧ p < 1/100 → add_stars_marker p = "**") ∧
    (p < 1/1000 → add_stars_marker p = "***") ∧
    (5/100 ≤ p → add_stars_marker p = "") := by
  refine ⟨fun h => ?_, fun h => ?_, fun h => ?_, fun h => ?_⟩
  · rw [add_stars_marker, if_pos h]
  · rw [add_stars_marker, if_neg (fun hc => absurd h.2 (not_lt.mpr (le_of_lt hc.1))),
        if_pos h]
  · have h2 : p < 1/100 := lt_trans h (by norm_num)
    rw [add_stars_marker, if_neg (fun hc => absurd hc.1 (not_lt.mpr (le_of_lt h2))),
        if_neg (fun hc => absurd hc.1 (not_le.mpr h)), if_pos h]
  · have hn1 : ¬ (1/100 < p ∧ p < 5/100) := fun hc => absurd hc.2 (not_lt.mpr h)
    have hn2 : ¬ (1/1000 ≤ p ∧ p < 1/100) := fun hc =>
      absurd hc.2 (not_lt.mpr (le_trans (by norm_num) h))
    have hn3 : ¬ p < 1/1000 := not_lt.mpr (le_trans (by norm_num) h)
    rw [add_stars_marker, if_neg hn1, if_neg hn2, if_neg hn3]

/-- Witness for C9 at the spec's four sample p-values. -/
theorem add_stars_marker_mapping_witness :
    add_stars_marker (1/25) = "*" ∧ add_stars_marker (1/200) = "**" ∧
    add_stars_marker (1/10000) = "***" ∧ add_stars_marker (1/2) = "" :=
  ⟨(add_stars_marker_mapping (1/25) (by norm_num) (by norm_num)).1 (by norm_num),
   (add_stars_marker_mapping (1/200) (by norm_num) (by norm_num)).2.1 (by norm_num),
   (add_stars_marker_mapping (1/10000) (by norm_num) (by norm_num)).2.2.1 (by norm_num),
   (add_stars_marker_mapping (1/2) (by norm_num) (by norm_num)).2.2.2 (by norm_num)⟩

/-- Claim C4: `fit_model` classifies the outcome by its count of distinct
values: exactly 2 distinct values fits a logistic regression, any other
count (including constant columns) fits OLS. -/
theorem fit_model_kind_dispatch (env : Env) (y formula : String) (df : Df) :
    (nunique df y = 2 → fit_model env y formula df = env.logitFit formula df) ∧
    (nunique df y ≠ 2 → fit_model env y formula df = env.olsFit formula df) ∧
    ((∃ c, ∀ v ∈ df y, v = c) → fit_model env y formula df = env.olsFit formula df) := by
  refine ⟨fun h => by rw [fit_model, if_pos h], fun h => by rw [fit_model, if_neg h],
    fun hc => ?_⟩
  obtain ⟨c, hc⟩ := hc
  have h2 : nunique df y ≠ 2 := by
    rw [nunique]
    cases hdd : (df y).dedup with
    | nil => simp [hdd]
    | cons a t =>
      cases t with
      | nil => simp
      | cons b u =>
        exfalso
        have hnd : (df y).dedup.Nodup := (df y).nodup_dedup
        rw [hdd] at hnd
        have hab : a ≠ b := fun hab => (List.nodup_cons.mp hnd).1
          (hab ▸ List.mem_cons_self b u)
        have ha : a = c := hc a (List.mem_dedup.mp (hdd ▸ List.mem_cons_self a _))
        have hb : b = c := hc b (List.mem_dedup.mp
          (hdd ▸ List.mem_cons_of_mem a (List.mem_cons_self b u)))
        exact hab (ha.trans hb.symm)
  rw [fit_model, if_neg h2]

/-- Witness for C4 on the example data: column `B` is dichotomous and gets
the logistic fit, column `A` is continuous and gets the OLS fit. -/
theorem fit_model_kind_dispatch_witness :
    fit_model envOK "B" "B ~ A" dfAB = envOK.logitFit "B ~ A" dfAB ∧
    fit_model envOK "A" "A ~ B" dfAB = envOK.olsFit "A ~ B" dfAB :=
  ⟨(fit_model_kind_dispatch envOK "B" "B ~ A" dfAB).1 (by decide),
   (fit_model_kind_dispatch envOK "A" "A ~ B" dfAB).2.1 (by decide)⟩

/-- Claim C10: the partial-correlation routine removes `x` and `y` from the
measures itself, so inserting either of them anywhere in the list does not
change its result. -/
theorem part_correlation_measures_irrelevant (env : Env) (df : Df)
    (x y z : String) (ms1 ms2 : List String) (hz : z = x ∨ z = y) :
    part_correlation env df x y (ms1 ++ z :: ms2) =
      part_correlation env df x y (ms1 ++ ms2) := by
  have hcov : covarsOf x y (ms1 ++ z :: ms2) = covarsOf x y (ms1 ++ ms2) := by
    simp only [covarsOf, List.filter_append, List.filter_cons]
    rcases hz with h | h <;> subst h <;> simp
  simp [part_correlation, hcov]

/-- Witness for C10: inserting `x` itself among the measures changes
nothing. -/
theorem part_correlation_measures_irrelevant_witness :
    part_correlation envOK dfAB "A" "B" (["C"] ++ "A" :: ["D"]) =
      part_correlation envOK dfAB "A" "B" (["C"] ++ ["D"]) :=
  part_correlation_measures_irrelevant envOK dfAB "A" "B" "A" ["C"] ["D"] (Or.inl rfl)

/-- Claim C5: with only the two measures `x` and `y`, the covariate set is
empty, intercept-only residualization centers each column, and the partial
correlation collapses to the raw Pearson correlation of `x` and `y`,
p-value included.  The hypotheses `hrx`, `hry` state the textbook fact
about the external OLS routine on an empty right-hand side: fitting a
column on the constant term alone leaves the centered column as
residuals. -/
theorem part_correlation_no_covars_raw_pearson (env : Env) (df : Df)
    (x y : String) (lmx lmy : FitRes)
    (hx : env.olsFit (x ++ " ~ " ++ joinPlus (covarsOf x y [x, y])) df = .ok lmx)
    (hy : env.olsFit (y ++ " ~ " ++ joinPlus (covarsOf x y [x, y])) df = .ok lmy)
    (hrx : lmx.resid = centeredList (df x))
    (hry : lmy.resid = centeredList (df y)) :
    part_correlation env df x y [x, y] = pearsonr env (df x) (df y) := by
  have hstep : part_correlation env df x y [x, y] =
      pearsonr env lmx.resid lmy.resid := by
    simp [part_correlation, hx, hy, okBind]
  rw [hstep, hrx, hry, pearsonr_centered]

/-- Witness for C5 on `dfC5`: the intercept-only environment reproduces the
raw Pearson result exactly. -/
theorem part_correlation_no_covars_raw_pearson_witness :
    part_correlation envC5 dfC5 "A" "B" ["A", "B"] =
      pearsonr envC5 (dfC5 "A") (dfC5 "B") := by
  refine part_correlation_no_covars_raw_pearson envC5 dfC5 "A" "B"
    ⟨fun _ => 0, fun _ => 0, [-1, 0, 1]⟩ ⟨fun _ => 0, fun _ => 0, [1, 0, -1]⟩
    rfl rfl ?_ ?_
  · show ([-1, 0, 1] : List ℚ) = centeredList (dfC5 "A")
    rw [dfC5, if_pos rfl]
    norm_num [centeredList, mean]
  · show ([1, 0, -1] : List ℚ) = centeredList (dfC5 "B")
    rw [dfC5, if_neg (by decide : ¬ ("B" : String) = "A"), if_pos rfl]
    norm_num [centeredList, mean]

/-- Claim C6: when the two residual sequences have fewer than 3 paired
observations the partial correlation fails with `InsufficientDataError`
instead of returning a numeric result. -/
theorem part_correlation_insufficient_data (env : Env) (df : Df)
    (x y : String) (ms : List String) (lmx lmy : FitRes)
    (hx : env.olsFit (x ++ " ~ " ++ joinPlus (covarsOf x y ms)) df = .ok lmx)
    (hy : env.olsFit (y ++ " ~ " ++ joinPlus (covarsOf x y ms)) df = .ok lmy)
    (hlen : lmx.resid.length < 3 ∨ lmy.resid.length < 3) :
    part_correlation env df x y ms = .error .insufficientDataError := by
  have hstep : part_correlation env df x y ms =
      pearsonr env lmx.resid lmy.resid := by
    simp [part_correlation, hx, hy, okBind]
  rw [hstep, pearsonr, if_pos hlen]

/-- Witness for C6: length-2 residual sequences produce the error. -/
theorem part_correlation_insufficient_data_witness :
    part_correlation envShort dfAB "A" "B" ["A", "B"] =
      .error .insufficientDataError :=
  part_correlation_insufficient_data envShort dfAB "A" "B" ["A", "B"]
    ⟨fun _ => 0, fun _ => 0, [0, 0]⟩ ⟨fun _ => 0, fun _ => 0, [0, 0]⟩
    rfl rfl (Or.inl (by decide))

/-! ## Matrix cell lemmas -/

/-- `List.replicate` indexing below the length. -/
theorem get?_replicate_lt {α : Type} (a : α) {n k : ℕ} (h : k < n) :
    (List.replicate n a).get? k = some a := by
  induction n generalizing k with
  | zero => omega
  | succ m ih =>
    cases k with
    | zero => rfl
    | succ k2 => exact ih (Nat.lt_of_succ_lt_succ h)

/-- Writing one cell leaves every other cell unchanged. -/
theorem getCell_setCell_ne (m : Mat) {i j p q : ℕ} (v : ℚ)
    (h : ¬(i = p ∧ j = q)) : getCell (setCell m i j v) p q = getCell m p q := by
  rcases eq_or_ne i p with hip | hip
  · subst hip
    have hjq : j ≠ q := fun hj => h ⟨rfl, hj⟩
    rcases Nat.lt_or_ge i m.length with hlt | hge
    · rw [getCell, show rowOf (setCell m i j v) i = (rowOf m i).set j v from by
          rw [setCell, rowOf, List.get?_set_eq_of_lt _ hlt, Option.getD_some],
        List.get?_set_ne _ _ hjq, getCell]
    · rw [getCell, getCell,
        show rowOf (setCell m i j v) i = rowOf m i from by
          rw [setCell, rowOf, rowOf, List.get?_len_le hge,
            List.get?_len_le (by simpa using hge)]]
  · rw [getCell, getCell, show rowOf (setCell m i j v) p = rowOf m p from by
      rw [setCell, rowOf, List.get?_set_ne _ _ hip]
      rfl]

/-- Writing an in-range cell stores the value. -/
theorem getCell_setCell_eq (m : Mat) {i j : ℕ} (v : ℚ) (hi : i < m.length)
    (hj : j < (rowOf m i).length) : getCell (setCell m i j v) i j = v := by
  rw [getCell, show rowOf (setCell m i j v) i = (rowOf m i).set j v from by
      rw [setCell, rowOf, List.get?_set_eq_of_lt _ hi, Option.getD_some],
    List.get?_set_eq_of_lt _ hj, Option.getD_some]

/-- Writing a cell preserves the number of rows. -/
theorem length_setCell (m : Mat) (i j : ℕ) (v : ℚ) :
    (setCell m i j v).length = m.length := List.length_set m i _

/-- Writing a cell preserves every row length. -/
theorem length_rowOf_setCell (m : Mat) (i j k : ℕ) (v : ℚ) :
    (rowOf (setCell m i j v) k).length = (rowOf m k).length := by
  rcases eq_or_ne i k with h | h
  · subst h
    rcases Nat.lt_or_ge i m.length with hlt | hge
    · rw [show rowOf (setCell m i j v) i = (rowOf m i).set j v from by
          rw [setCell, rowOf, List.get?_set_eq_of_lt _ hlt, Option.getD_some],
        List.length_set]
    · rw [show rowOf (setCell m i j v) i = rowOf m i from by
        rw [setCell, rowOf, rowOf, List.get?_len_le hge,
          List.get?_len_le (by simpa using hge)]]
  · rw [show rowOf (setCell m i j v) k = rowOf m k from by
      rw [setCell, rowOf, List.get?_set_ne _ _ h]
      rfl]

/-- Writing a cell preserves squareness. -/
theorem matShape_setCell {n : ℕ} {m : Mat} (i j : ℕ) (v : ℚ)
    (h : matShape n m) : matShape n (setCell m i j v) := by
  refine ⟨by rw [length_setCell, h.1], fun k hk => ?_⟩
  rw [length_rowOf_setCell]
  exact h.2 k hk

/-- The all-ones matrix is square. -/
theorem matShape_onesMat (n : ℕ) : matShape n (onesMat n) := by
  refine ⟨List.length_replicate n _, fun k hk => ?_⟩
  rw [rowOf, onesMat, get?_replicate_lt _ hk, Option.getD_some,
    List.length_replicate]

/-- The all-ones matrix holds `1` at every in-range cell. -/
theorem getCell_onesMat {n i j : ℕ} (hi : i < n) (hj : j < n) :
    getCell (onesMat n) i j = 1 := by
  rw [getCell, rowOf, onesMat, get?_replicate_lt _ hi, Option.getD_some,
    get?_replicate_lt _ hj, Option.getD_some]

/-- `writeCell` preserves squareness of the four matrices. -/
theorem matsSquare_writeCell {n : ℕ} {acc : Mats} (i j : ℕ)
    (v : ℚ × ℚ × ℚ × ℚ) (h : matsSquare n acc) :
    matsSquare n (writeCell acc i j v) :=
  ⟨matShape_setCell i j _ h.1, matShape_setCell i j _ h.2.1,
   matShape_setCell i j _ h.2.2.1, matShape_setCell i j _ h.2.2.2⟩

/-- An off-diagonal `writeCell` preserves the loop invariant. -/
theorem statsInv_writeCell {n : ℕ} {acc : Mats} {i j : ℕ}
    (v : ℚ × ℚ × ℚ × ℚ) (hij : i ≠ j) (h : statsInv n acc) :
    statsInv n (writeCell acc i j v) := by
  refine ⟨matsSquare_writeCell i j v h.1, fun k hk => ?_⟩
  have hne : ¬(i = k ∧ j = k) := fun hc => hij (hc.1.trans hc.2.symm)
  obtain ⟨h1, h2, h3, h4⟩ := h.2 k hk
  exact ⟨(getCell_setCell_ne _ _ hne).trans h1,
    (getCell_setCell_ne _ _ hne).trans h2,
    (getCell_setCell_ne _ _ hne).trans h3,
    (getCell_setCell_ne _ _ hne).trans h4⟩

/-- The initial matrices satisfy the loop invariant. -/
theorem statsInv_setup_arrays (ms : List String) :
    statsInv ms.length (setup_arrays ms) := by
  refine ⟨⟨matShape_onesMat _, matShape_onesMat _, matShape_onesMat _,
    matShape_onesMat _⟩, fun k hk => ?_⟩
  exact ⟨getCell_onesMat hk hk, getCell_onesMat hk hk, getCell_onesMat hk hk,
    getCell_onesMat hk hk⟩

/-! ## Loop lemmas for `calc_stats` -/

/-- Any property preserved by off-diagonal writes is preserved by the
column loop. -/
theorem colLoop_inv {env : Env} {df : Df} {ms : List String} {lm : FitRes}
    {y : String} {i : ℕ} (Q : Mats → Prop)
    (hQ : ∀ acc j v, i ≠ j → Q acc → Q (writeCell acc i j v)) :
    ∀ (l : List String) (j0 : ℕ) (acc acc2 : Mats),
      colLoop env df ms lm y i j0 l acc = .ok acc2 → Q acc → Q acc2 := by
  intro l
  induction l with
  | nil =>
    intro j0 acc acc2 h h0
    cases h
    exact h0
  | cons x rest ih =>
    intro j0 acc acc2 h h0
    rw [colLoop] at h
    by_cases hij : i = j0
    · rw [if_pos hij] at h
      exact ih (j0 + 1) acc acc2 h h0
    · rw [if_neg hij] at h
      obtain ⟨v, hv, hrest⟩ := exceptBind_ok h
      exact ih (j0 + 1) _ acc2 hrest (hQ acc j0 v hij h0)

/-- Any property preserved by off-diagonal writes is preserved by a row
step. -/
theorem rowStep_inv {env : Env} {df : Df} {ms : List String}
    (Q : Mats → Prop)
    (hQ : ∀ acc i j v, i ≠ j → Q acc → Q (writeCell acc i j v))
    (i : ℕ) (y : String) (acc acc2 : Mats)
    (h : rowStep env df ms i y acc = .ok acc2) (h0 : Q acc) : Q acc2 := by
  rw [rowStep] at h
  obtain ⟨lm, hlm, hcol⟩ := exceptBind_ok h
  exact colLoop_inv Q (fun a j v hij => hQ a i j v hij) ms 0 acc acc2 hcol h0

/-- Any property preserved by off-diagonal writes is preserved by the row
loop. -/
theorem rowLoop_inv {env : Env} {df : Df} {ms : List String}
    (Q : Mats → Prop)
    (hQ : ∀ acc i j v, i ≠ j → Q acc → Q (writeCell acc i j v)) :
    ∀ (l : List String) (i0 : ℕ) (acc acc2 : Mats),
      rowLoop env df ms i0 l acc = .ok acc2 → Q acc → Q acc2 := by
  intro l
  induction l with
  | nil =>
    intro i0 acc acc2 h h0
    cases h
    exact h0
  | cons y rest ih =>
    intro i0 acc acc2 h h0
    rw [rowLoop] at h
    obtain ⟨acc1, hstep, hrest⟩ := exceptBind_ok h
    exact ih (i0 + 1) acc1 acc2 hrest (rowStep_inv Q hQ i0 y acc acc1 hstep h0)

/-- `cellsEq` is reflexive. -/
theorem cellsEq_refl (a : Mats) (p q : ℕ) : cellsEq a a p q :=
  ⟨rfl, rfl, rfl, rfl⟩

/-- `cellsEq` is transitive. -/
theorem cellsEq_trans {a b c : Mats} {p q : ℕ} (h1 : cellsEq a b p q)
    (h2 : cellsEq b c p q) : cellsEq a c p q :=
  ⟨h1.1.trans h2.1, h1.2.1.trans h2.2.1, h1.2.2.1.trans h2.2.2.1,
   h1.2.2.2.trans h2.2.2.2⟩

/-- `writeCell` leaves every other cell unchanged. -/
theorem cellsEq_writeCell (acc : Mats) (i j p q : ℕ) (v : ℚ × ℚ × ℚ × ℚ)
    (h : ¬(i = p ∧ j = q)) : cellsEq (writeCell acc i j v) acc p q :=
  ⟨getCell_setCell_ne _ _ h, getCell_setCell_ne _ _ h,
   getCell_setCell_ne _ _ h, getCell_setCell_ne _ _ h⟩

/-- The column loop of row `i` does not modify other rows, nor columns
before its start index. -/
theorem colLoop_pres_cells {env : Env} {df : Df} {ms : List String}
    {lm : FitRes} {y : String} {i : ℕ} :
    ∀ (l : List String) (j0 : ℕ) (acc acc2 : Mats),
      colLoop env df ms lm y i j0 l acc = .ok acc2 →
      ∀ p q, p ≠ i ∨ q < j0 → cellsEq acc2 acc p q := by
  intro l
  induction l with
  | nil =>
    intro j0 acc acc2 h p q hpq
    cases h
    exact cellsEq_refl _ _ _
  | cons x rest ih =>
    intro j0 acc acc2 h p q hpq
    rw [colLoop] at h
    have hw : p ≠ i ∨ q < j0 + 1 := by
      rcases hpq with h1 | h1
      · exact Or.inl h1
      · exact Or.inr (Nat.lt_succ_of_lt h1)
    by_cases hij : i = j0
    · rw [if_pos hij] at h
      exact ih (j0 + 1) acc acc2 h p q hw
    · rw [if_neg hij] at h
      obtain ⟨v, hv, hrest⟩ := exceptBind_ok h
      refine cellsEq_trans (ih (j0 + 1) _ acc2 hrest p q hw) ?_
      refine cellsEq_writeCell acc i j0 p q v ?_
      rintro ⟨hip, hjq⟩
      rcases hpq with h1 | h1
      · exact h1 hip.symm
      · omega

/-- The value the column loop stores at each visited off-diagonal cell. -/
theorem colLoop_cell_value {env : Env} {df : Df} {ms : List String}
    {lm : FitRes} {y : String} {i n : ℕ} :
    ∀ (l : List String) (j0 : ℕ) (acc acc2 : Mats),
      colLoop env df ms lm y i j0 l acc = .ok acc2 →
      matsSquare n acc → i < n →
      ∀ (d : ℕ) (x : String), l.get? d = some x → j0 + d < n → i ≠ j0 + d →
      ∃ v, cellVals env df ms lm y x = .ok v ∧
        getCell acc2.pairP i (j0 + d) = v.1 ∧
        getCell acc2.pairES i (j0 + d) = v.2.1 ∧
        getCell acc2.partP i (j0 + d) = v.2.2.1 ∧
        getCell acc2.partES i (j0 + d) = v.2.2.2 := by
  intro l
  induction l with
  | nil =>
    intro j0 acc acc2 h hsq hi d x hx hdn hid
    simp at hx
  | cons x0 rest ih =>
    intro j0 acc acc2 h hsq hi d x hx hdn hid
    rw [colLoop] at h
    cases d with
    | zero =>
      rw [List.get?_cons_zero] at hx
      have hxx := Option.some.inj hx
      subst hxx
      have hij : i ≠ j0 := by simpa using hid
      have hj0n : j0 < n := by simpa using hdn
      rw [if_neg hij] at h
      obtain ⟨v, hv, hrest⟩ := exceptBind_ok h
      refine ⟨v, hv, ?_⟩
      have hpres := colLoop_pres_cells rest (j0 + 1) _ acc2 hrest i j0
        (Or.inr (Nat.lt_succ_self j0))
      have e1 : getCell (writeCell acc i j0 v).pairP i j0 = v.1 :=
        getCell_setCell_eq _ _ (by rw [hsq.1.1]; exact hi)
          (by rw [hsq.1.2 i hi]; exact hj0n)
      have e2 : getCell (writeCell acc i j0 v).pairES i j0 = v.2.1 :=
        getCell_setCell_eq _ _ (by rw [hsq.2.1.1]; exact hi)
          (by rw [hsq.2.1.2 i hi]; exact hj0n)
      have e3 : getCell (writeCell acc i j0 v).partP i j0 = v.2.2.1 :=
        getCell_setCell_eq _ _ (by rw [hsq.2.2.1.1]; exact hi)
          (by rw [hsq.2.2.1.2 i hi]; exact hj0n)
      have e4 : getCell (writeCell acc i j0 v).partES i j0 = v.2.2.2 :=
        getCell_setCell_eq _ _ (by rw [hsq.2.2.2.1]; exact hi)
          (by rw [hsq.2.2.2.2 i hi]; exact hj0n)
      simp only [Nat.add_zero]
      exact ⟨hpres.1.trans e1, hpres.2.1.trans e2, hpres.2.2.1.trans e3,
        hpres.2.2.2.trans e4⟩
    | succ d2 =>
      have hx2 : rest.get? d2 = some x := hx
      have hsum : j0 + (d2 + 1) = (j0 + 1) + d2 := by omega
      rw [hsum]
      by_cases hij : i = j0
      · rw [if_pos hij] at h
        exact ih (j0 + 1) acc acc2 h hsq hi d2 x hx2 (by omega) (by omega)
      · rw [if_neg hij] at h
        obtain ⟨v0, hv0, hrest⟩ := exceptBind_ok h
        exact ih (j0 + 1) _ acc2 hrest (matsSquare_writeCell _ _ _ hsq) hi d2 x
          hx2 (by omega) (by omega)

/-- The row loop does not modify rows before its start index. -/
theorem rowLoop_pres_cells {env : Env} {df : Df} {ms : List String} :
    ∀ (l : List String) (i0 : ℕ) (acc acc2 : Mats),
      rowLoop env df ms i0 l acc = .ok acc2 →
      ∀ p q, p < i0 → cellsEq acc2 acc p q := by
  intro l
  induction l with
  | nil =>
    intro i0 acc acc2 h p q hp
    cases h
    exact cellsEq_refl _ _ _
  | cons y rest ih =>
    intro i0 acc acc2 h p q hp
    rw [rowLoop] at h
    obtain ⟨acc1, hstep, hrest⟩ := exceptBind_ok h
    refine cellsEq_trans (ih (i0 + 1) acc1 acc2 hrest p q (Nat.lt_succ_of_lt hp)) ?_
    rw [rowStep] at hstep
    obtain ⟨lm, hlm, hcol⟩ := exceptBind_ok hstep
    exact colLoop_pres_cells ms 0 acc acc1 hcol p q (Or.inl (Nat.ne_of_lt hp))

/-- The full-model fit and the cell values of every row the row loop
visits. -/
theorem rowLoop_row_value {env : Env} {df : Df} {ms : List String} {n : ℕ} :
    ∀ (l : List String) (i0 : ℕ) (acc acc2 : Mats),
      rowLoop env df ms i0 l acc = .ok acc2 →
      matsSquare n acc → i0 + l.length ≤ n →
      ∀ (d : ℕ) (y : String), l.get? d = some y →
      ∃ lm, fit_model env y (fullFormula ms y) df = .ok lm ∧
        ∀ (j : ℕ) (x : String), ms.get? j = some x → j < n → i0 + d ≠ j →
        ∃ v, cellVals env df ms lm y x = .ok v ∧
          getCell acc2.pairP (i0 + d) j = v.1 ∧
          getCell acc2.pairES (i0 + d) j = v.2.1 ∧
          getCell acc2.partP (i0 + d) j = v.2.2.1 ∧
          getCell acc2.partES (i0 + d) j = v.2.2.2 := by
  intro l
  induction l with
  | nil =>
    intro i0 acc acc2 h hsq hlen d y hy
    simp at hy
  | cons y0 rest ih =>
    intro i0 acc acc2 h hsq hlen d y hy
    rw [rowLoop] at h
    obtain ⟨acc1, hstep, hrest⟩ := exceptBind_ok h
    have hlen2 : i0 + rest.length + 1 ≤ n := by
      have hlc : (y0 :: rest).length = rest.length + 1 := rfl
      rw [hlc] at hlen
      omega
    cases d with
    | zero =>
      rw [List.get?_cons_zero] at hy
      have hyy := Option.some.inj hy
      subst hyy
      rw [rowStep] at hstep
      obtain ⟨lm, hlm, hcol⟩ := exceptBind_ok hstep
      refine ⟨lm, hlm, ?_⟩
      intro j x hx hj hij
      have hi0 : i0 < n := by omega
      have hcv := colLoop_cell_value ms 0 acc acc1 hcol hsq hi0 j x hx
        (by omega) (by simpa using hij)
      simp only [Nat.zero_add] at hcv
      obtain ⟨v, hv, c1, c2, c3, c4⟩ := hcv
      have hpres := rowLoop_pres_cells rest (i0 + 1) acc1 acc2 hrest i0 j
        (Nat.lt_succ_self i0)
      simp only [Nat.add_zero]
      exact ⟨v, hv, hpres.1.trans c1, hpres.2.1.trans c2,
        hpres.2.2.1.trans c3, hpres.2.2.2.trans c4⟩
    | succ d2 =>
      have hy2 : rest.get? d2 = some y := hy
      have hsq1 : matsSquare n acc1 :=
        rowStep_inv (matsSquare n)
          (fun a i j v _ ha => matsSquare_writeCell i j v ha) i0 y0 acc acc1
          hstep hsq
      have hsum : i0 + (d2 + 1) = (i0 + 1) + d2 := by omega
      rw [hsum]
      exact ih (i0 + 1) acc1 acc2 hrest hsq1 (by omega) d2 y hy2

/-- Master cell lemma: a successful `calc_stats` run fitted, for every row,
the full model once, and stored at every off-diagonal cell exactly the four
values computed from the pairwise and full fits of that cell. -/
theorem calc_stats_cells {env : Env} {df : Df} {ms : List String}
    {mats : Mats} (h : calc_stats env df ms = .ok mats) :
    ∀ (i : ℕ) (y : String), ms.get? i = some y →
    ∃ lm, fit_model env y (fullFormula ms y) df = .ok lm ∧
      ∀ (j : ℕ) (x : String), ms.get? j = some x → i ≠ j →
      ∃ v, cellVals env df ms lm y x = .ok v ∧
        getCell mats.pairP i j = v.1 ∧ getCell mats.pairES i j = v.2.1 ∧
        getCell mats.partP i j = v.2.2.1 ∧ getCell mats.partES i j = v.2.2.2 := by
  intro i y hy
  rw [calc_stats] at h
  have hsq : matsSquare ms.length (setup_arrays ms) :=
    (statsInv_setup_arrays ms).1
  have hv := rowLoop_row_value ms 0 _ mats h hsq (by simp) i y hy
  simp only [Nat.zero_add] at hv
  obtain ⟨lm, hlm, hcells⟩ := hv
  refine ⟨lm, hlm, fun j x hx hij => ?_⟩
  have hj : j < ms.length := (List.get?_eq_some.mp hx).1
  exact hcells j x hx hj hij

/-- Inversion of `cellVals` on a Binary outcome row. -/
theorem cellVals_binary {env : Env} {df : Df} {ms : List String}
    {lm : FitRes} {y x : String} {v : ℚ × ℚ × ℚ × ℚ}
    (hb : nunique df y = 2) (h : cellVals env df ms lm y x = .ok v) :
    ∃ lmp, fit_model env y (pairFormula y x) df = .ok lmp ∧
      v = (lmp.pvalues x, env.exp (lmp.params x), lm.pvalues x,
        env.exp (lm.params x)) := by
  rw [cellVals] at h
  obtain ⟨lmp, hlmp, hk⟩ := exceptBind_ok h
  rw [if_pos hb] at hk
  refine ⟨lmp, hlmp, ?_⟩
  cases hk
  rfl

/-- Inversion of `cellVals` on a Continuous outcome row. -/
theorem cellVals_cont {env : Env} {df : Df} {ms : List String}
    {lm : FitRes} {y x : String} {v : ℚ × ℚ × ℚ × ℚ}
    (hb : ¬ nunique df y = 2) (h : cellVals env df ms lm y x = .ok v) :
    ∃ lmp pr pc, fit_model env y (pairFormula y x) df = .ok lmp ∧
      pearsonr env (df x) (df y) = .ok pr ∧
      part_correlation env df x y ms = .ok pc ∧
      v = (lmp.pvalues x, pr.1, lm.pvalues x, pc.1) := by
  rw [cellVals] at h
  obtain ⟨lmp, hlmp, hk⟩ := exceptBind_ok h
  rw [if_neg hb] at hk
  obtain ⟨pr, hpr, hk2⟩ := exceptBind_ok hk
  obtain ⟨pc, hpc, hk3⟩ := exceptBind_ok hk2
  refine ⟨lmp, pr, pc, hlmp, hpr, hpc, ?_⟩
  cases hk3
  rfl

/-- A successful `pearsonr` call returns the Pearson coefficient in its
first component. -/
theorem pearsonr_ok {env : Env} {xs ys : List ℚ} {pr : ℚ × ℚ}
    (h : pearsonr env xs ys = .ok pr) : pr.1 = pearsonR env xs ys := by
  rw [pearsonr] at h
  split at h
  · exact Except.noConfusion h
  · cases h
    rfl

/-- From indexed squareness to the row-membership form of the shape
contract. -/
theorem matShape_squareOnesDiag {n : ℕ} {m : Mat} (hs : matShape n m)
    (hd : ∀ k, k < n → getCell m k k = 1) : squareOnesDiag n m := by
  refine ⟨hs.1, fun row hrow => ?_, hd⟩
  obtain ⟨k, hk⟩ := List.mem_iff_get?.mp hrow
  have hkn : k < n := hs.1 ▸ (List.get?_eq_some.mp hk).1
  have hrk : rowOf m k = row := by rw [rowOf, hk, Option.getD_some]
  rw [← hrk]
  exact hs.2 k hkn

/-! ## Claims C1, C2, C3, C7 -/

/-- Claim C1: a successful `calc_stats` run on a measure list of size N
returns four N-by-N matrices whose diagonal cells all equal exactly 1: the
matrices are initialized to ones and a cell (i,j) is written only when
i ≠ j. -/
theorem calc_stats_diag_ones (env : Env) (df : Df) (ms : List String)
    (mats : Mats) (h : calc_stats env df ms = .ok mats) :
    squareOnesDiag ms.length mats.pairP ∧
    squareOnesDiag ms.length mats.pairES ∧
    squareOnesDiag ms.length mats.partP ∧
    squareOnesDiag ms.length mats.partES := by
  have hinv : statsInv ms.length mats := by
    rw [calc_stats] at h
    exact rowLoop_inv (statsInv ms.length)
      (fun acc i j v hij ha => statsInv_writeCell v hij ha) ms 0 _ mats h
      (statsInv_setup_arrays ms)
  exact ⟨matShape_squareOnesDiag hinv.1.1 (fun k hk => (hinv.2 k hk).1),
    matShape_squareOnesDiag hinv.1.2.1 (fun k hk => (hinv.2 k hk).2.1),
    matShape_squareOnesDiag hinv.1.2.2.1 (fun k hk => (hinv.2 k hk).2.2.1),
    matShape_squareOnesDiag hinv.1.2.2.2 (fun k hk => (hinv.2 k hk).2.2.2)⟩

/-- Witness for C1 on the concrete benign run over two measures. -/
theorem calc_stats_diag_ones_witness :
    getCell wMatsAB.pairP 0 0 = 1 ∧ getCell wMatsAB.pairES 1 1 = 1 ∧
    getCell wMatsAB.partP 0 0 = 1 ∧ getCell wMatsAB.partES 1 1 = 1 ∧
    wMatsAB.pairES.length = 2 := by
  have h := calc_stats_diag_ones envOK dfAB msAB wMatsAB rfl
  exact ⟨h.1.2.2 0 (by decide), h.2.1.2.2 1 (by decide),
    h.2.2.1.2.2 0 (by decide), h.2.2.2.2.2 1 (by decide), h.2.1.1⟩

/-- Claim C2 (amended): for an off-diagonal cell (i,j) whose outcome row i
is Continuous, pairES[i,j] is the Pearson correlation of the raw columns;
the symmetry pairES[i,j] = pairES[j,i] holds when the measure of row j is
also Continuous (a Binary row j stores an odds ratio there instead). -/
theorem pairES_pearson_symm_continuous (env : Env) (df : Df)
    (ms : List String) (mats : Mats) (i j : ℕ) (y x : String)
    (hok : calc_stats env df ms = .ok mats)
    (hy : ms.get? i = some y) (hx : ms.get? j = some x) (hij : i ≠ j)
    (hcy : ¬ nunique df y = 2) :
    getCell mats.pairES i j = pearsonR env (df x) (df y) ∧
    (¬ nunique df x = 2 →
      getCell mats.pairES j i = getCell mats.pairES i j) := by
  have main : ∀ (p q : ℕ) (b a : String), ms.get? p = some b →
      ms.get? q = some a → p ≠ q → ¬ nunique df b = 2 →
      getCell mats.pairES p q = pearsonR env (df a) (df b) := by
    intro p q b a hb ha hpq hcb
    obtain ⟨lm, hlm, hcells⟩ := calc_stats_cells hok p b hb
    obtain ⟨v, hv, c1, c2, c3, c4⟩ := hcells q a ha hpq
    obtain ⟨lmp, pr, pc, hlmp, hpr, hpc, hveq⟩ := cellVals_cont hcb hv
    rw [c2, hveq]
    exact pearsonr_ok hpr
  refine ⟨main i j y x hy hx hij hcy, fun hcx => ?_⟩
  rw [main j i x y hx hy (Ne.symm hij) hcx, main i j y x hy hx hij hcy]
  exact pearsonR_comm env (df y) (df x)

/-- Witness for the amended C2 on two Continuous measures. -/
theorem pairES_pearson_symm_continuous_witness :
    getCell wMatsAC.pairES 0 1 = pearsonR envOK (dfAC "C") (dfAC "A") ∧
    getCell wMatsAC.pairES 1 0 = getCell wMatsAC.pairES 0 1 := by
  have h := pairES_pearson_symm_continuous envOK dfAC msAC wMatsAC 0 1 "A" "C"
    rfl rfl rfl (by decide) (by decide)
  exact ⟨h.1, h.2 (by decide)⟩

/-- Counterexample to claim C2 as stated: in `dfAB` the outcome row `A`
(index 0) is Continuous, and pairES[0,1] holds the Pearson correlation 0,
but the mirror cell pairES[1,0] belongs to the Binary row `B` and holds the
odds ratio exp(0) = 1, so the claimed symmetry pairES[i,j] = pairES[j,i]
fails at (i,j) = (0,1).  (On this data the logistic slope of `B ~ A` is
exactly 0 by the reflection symmetry of the data about the mean of `A`, so
the environment's values agree with the real numerics at every argument
reached.) -/
theorem pairES_symmetry_counterexample :
    ¬ nunique dfAB "A" = 2 ∧
    (calc_stats envOK dfAB msAB).toOption.map
      (fun m => (getCell m.pairES 0 1, getCell m.pairES 1 0)) =
      some (0, 1) ∧ (0 : ℚ) ≠ 1 := by
  refine ⟨by decide, by with_unfolding_all decide, by norm_num⟩

/-- Claim C3: for a Binary outcome row i, pairES[i,j] is the exponential of
the pairwise logistic coefficient of x, and partES[i,j] is the exponential
of the full-model logistic coefficient of x. -/
theorem binary_pairES_odds_ratio (env : Env) (df : Df) (ms : List String)
    (mats : Mats) (i j : ℕ) (y x : String)
    (hok : calc_stats env df ms = .ok mats)
    (hy : ms.get? i = some y) (hx : ms.get? j = some x) (hij : i ≠ j)
    (hb : nunique df y = 2) :
    (env.logitFit (pairFormula y x) df).map (fun lm => env.exp (lm.params x)) =
      .ok (getCell mats.pairES i j) ∧
    (env.logitFit (fullFormula ms y) df).map (fun lm => env.exp (lm.params x)) =
      .ok (getCell mats.partES i j) := by
  obtain ⟨lm, hlm, hcells⟩ := calc_stats_cells hok i y hy
  obtain ⟨v, hv, c1, c2, c3, c4⟩ := hcells j x hx hij
  obtain ⟨lmp, hlmp, hveq⟩ := cellVals_binary hb hv
  rw [fit_model, if_pos hb] at hlm hlmp
  subst hveq
  constructor
  · rw [hlmp, c2]
    rfl
  · rw [hlm, c4]
    rfl

/-- Witness for C3 at the Binary row `B` of the concrete run. -/
theorem binary_pairES_odds_ratio_witness :
    (envOK.logitFit (pairFormula "B" "A") dfAB).map
      (fun lm => envOK.exp (lm.params "A")) =
      .ok (getCell wMatsAB.pairES 1 0) ∧
    (envOK.logitFit (fullFormula msAB "B") dfAB).map
      (fun lm => envOK.exp (lm.params "A")) =
      .ok (getCell wMatsAB.partES 1 0) :=
  binary_pairES_odds_ratio envOK dfAB msAB wMatsAB 1 0 "B" "A" rfl rfl rfl
    (by decide) (by decide)

/-- Claim C7: if the full-model fit of any row, or the pairwise fit of any
off-diagonal cell, fails, then `calc_stats` fails as a whole; it never
returns (partially populated) matrices. -/
theorem calc_stats_fit_failure_aborts (env : Env) (df : Df)
    (ms : List String) (i j : ℕ) (y x : String) (e : StatErr)
    (hy : ms.get? i = some y) (hx : ms.get? j = some x)
    (hfail : fit_model env y (fullFormula ms y) df = .error e ∨
      (i ≠ j ∧ fit_model env y (pairFormula y x) df = .error e)) :
    exOk (calc_stats env df ms) = false := by
  cases hres : calc_stats env df ms with
  | error s => rfl
  | ok mats =>
    exfalso
    obtain ⟨lm, hlm, hcells⟩ := calc_stats_cells hres i y hy
    rcases hfail with hf | ⟨hij, hf⟩
    · rw [hlm] at hf
      exact Except.noConfusion hf
    · obtain ⟨v, hv, _⟩ := hcells j x hx hij
      rw [cellVals] at hv
      obtain ⟨lmp, hlmp, _⟩ := exceptBind_ok hv
      rw [hlmp] at hf
      exact Except.noConfusion hf

/-- Witness for C7: an environment whose OLS fit fails makes the whole
matrix build fail. -/
theorem calc_stats_fit_failure_aborts_witness :
    exOk (calc_stats envBad dfAB msAB) = false :=
  calc_stats_fit_failure_aborts envBad dfAB msAB 0 1 "A" "B" .modelFitError
    rfl rfl (Or.inl rfl)

/-! ## Mask lemmas for `calc_masks` -/

/-- Zeroing a row keeps the matrix square. -/
theorem matShape_setRowZero {n : ℕ} {m : Mat} (i : ℕ) (h : matShape n m) :
    matShape n (setRowZero m i n) := by
  refine ⟨by rw [setRowZero, List.length_set, h.1], fun k hk => ?_⟩
  rcases eq_or_ne i k with he | he
  · subst he
    rcases Nat.lt_or_ge i m.length with hlt | hge
    · rw [show rowOf (setRowZero m i n) i = List.replicate n 0 from by
          rw [setRowZero, rowOf, List.get?_set_eq_of_lt _ hlt, Option.getD_some],
        List.length_replicate]
    · rw [show rowOf (setRowZero m i n) i = rowOf m i from by
        rw [setRowZero, rowOf, rowOf, List.get?_len_le hge,
          List.get?_len_le (by simpa using hge)]]
      exact h.2 _ hk
  · rw [show rowOf (setRowZero m i n) k = rowOf m k from by
      rw [setRowZero, rowOf, List.get?_set_ne _ _ he]
      rfl]
    exact h.2 _ hk

/-- A zeroed row reads `0` at every column. -/
theorem getCell_setRowZero_same {m : Mat} {i : ℕ} (n j : ℕ)
    (hi : i < m.length) : getCell (setRowZero m i n) i j = 0 := by
  rw [getCell, rowOf, setRowZero, List.get?_set_eq_of_lt _ hi, Option.getD_some]
  rcases Nat.lt_or_ge j n with h | h
  · rw [get?_replicate_lt _ h, Option.getD_some]
  · rw [List.get?_len_le (by simpa using h)]
    rfl

/-- Zeroing one row leaves the other rows unchanged. -/
theorem getCell_setRowZero_ne {m : Mat} {i k : ℕ} (n j : ℕ) (h : i ≠ k) :
    getCell (setRowZero m i n) k j = getCell m k j := by
  rw [getCell, getCell, show rowOf (setRowZero m i n) k = rowOf m k from by
    rw [setRowZero, rowOf, List.get?_set_ne _ _ h]
    rfl]

/-- The kind step on a dichotomous measure leaves the Pearson mask alone. -/
theorem kindStep_fst_of_bin {df : Df} {ms : List String} {p : Mat × Mat}
    {y : String} (hk : nunique df y = 2) : (kindStep df ms p y).1 = p.1 := by
  rw [kindStep, if_pos hk]

/-- The kind step on a continuous measure zeroes its row of the Pearson
mask. -/
theorem kindStep_fst_of_cont {df : Df} {ms : List String} {p : Mat × Mat}
    {y : String} (hk : ¬ nunique df y = 2) :
    (kindStep df ms p y).1 = setRowZero p.1 (ms.indexOf y) ms.length := by
  rw [kindStep, if_neg hk]

/-- The kind step on a continuous measure leaves the odds-ratio mask
alone. -/
theorem kindStep_snd_of_cont {df : Df} {ms : List String} {p : Mat × Mat}
    {y : String} (hk : ¬ nunique df y = 2) : (kindStep df ms p y).2 = p.2 := by
  rw [kindStep, if_neg hk]

/-- The kind step on a dichotomous measure zeroes its row of the odds-ratio
mask. -/
theorem kindStep_snd_of_bin {df : Df} {ms : List String} {p : Mat × Mat}
    {y : String} (hk : nunique df y = 2) :
    (kindStep df ms p y).2 = setRowZero p.2 (ms.indexOf y) ms.length := by
  rw [kindStep, if_pos hk]

/-- The Pearson mask after the kind loop: a cell is `0` exactly when some
visited continuous measure indexes its row, and is untouched otherwise. -/
theorem kindLoop_fst_cell (df : Df) (ms : List String) :
    ∀ (l : List String) (p : Mat × Mat), p.1.length = ms.length →
      (∀ y ∈ l, y ∈ ms) → ∀ (i j : ℕ),
      getCell (kindLoop df ms l p).1 i j =
        if ∃ y ∈ l, ms.indexOf y = i ∧ ¬ nunique df y = 2 then 0
        else getCell p.1 i j := by
  intro l
  induction l with
  | nil =>
    intro p hp hl i j
    rw [show kindLoop df ms [] p = p from rfl, if_neg (by simp)]
  | cons y0 rest ih =>
    intro p hp hl i j
    rw [show kindLoop df ms (y0 :: rest) p =
      kindLoop df ms rest (kindStep df ms p y0) from rfl]
    have hl0 : y0 ∈ ms := hl y0 (List.mem_cons_self _ _)
    have hlr : ∀ y ∈ rest, y ∈ ms := fun y hy => hl y (List.mem_cons_of_mem _ hy)
    by_cases hk : nunique df y0 = 2
    · have hstep1 : (kindStep df ms p y0).1 = p.1 := kindStep_fst_of_bin hk
      rw [ih (kindStep df ms p y0) (by rw [hstep1, hp]) hlr i j, hstep1]
      have hcond : (∃ y ∈ rest, ms.indexOf y = i ∧ ¬ nunique df y = 2) ↔
          (∃ y ∈ y0 :: rest, ms.indexOf y = i ∧ ¬ nunique df y = 2) := by
        constructor
        · rintro ⟨y, hy, h1, h2⟩
          exact ⟨y, List.mem_cons_of_mem _ hy, h1, h2⟩
        · rintro ⟨y, hy, h1, h2⟩
          rcases List.mem_cons.mp hy with h | h
          · subst h
            exact absurd hk h2
          · exact ⟨y, h, h1, h2⟩
      rw [if_congr hcond rfl rfl]
    · have hstep1 : (kindStep df ms p y0).1 =
          setRowZero p.1 (ms.indexOf y0) ms.length := kindStep_fst_of_cont hk
      have hlen1 : (kindStep df ms p y0).1.length = ms.length := by
        rw [hstep1, setRowZero, List.length_set, hp]
      rw [ih (kindStep df ms p y0) hlen1 hlr i j, hstep1]
      by_cases hidx : ms.indexOf y0 = i
      · have hcond : ∃ y ∈ y0 :: rest, ms.indexOf y = i ∧ ¬ nunique df y = 2 :=
          ⟨y0, List.mem_cons_self _ _, hidx, hk⟩
        rw [if_pos hcond]
        by_cases hrest : ∃ y ∈ rest, ms.indexOf y = i ∧ ¬ nunique df y = 2
        · rw [if_pos hrest]
        · rw [if_neg hrest, hidx]
          exact getCell_setRowZero_same _ _ (by
            rw [hp, ← hidx]
            exact List.indexOf_lt_length.mpr hl0)
      · have hcond : (∃ y ∈ rest, ms.indexOf y = i ∧ ¬ nunique df y = 2) ↔
            (∃ y ∈ y0 :: rest, ms.indexOf y = i ∧ ¬ nunique df y = 2) := by
          constructor
          · rintro ⟨y, hy, h1, h2⟩
            exact ⟨y, List.mem_cons_of_mem _ hy, h1, h2⟩
          · rintro ⟨y, hy, h1, h2⟩
            rcases List.mem_cons.mp hy with h | h
            · subst h
              exact absurd h1 hidx
            · exact ⟨y, h, h1, h2⟩
        rw [if_congr hcond rfl (getCell_setRowZero_ne _ _ hidx)]

/-- The odds-ratio mask after the kind loop: a cell is `0` exactly when
some visited dichotomous measure indexes its row. -/
theorem kindLoop_snd_cell (df : Df) (ms : List String) :
    ∀ (l : List String) (p : Mat × Mat), p.2.length = ms.length →
      (∀ y ∈ l, y ∈ ms) → ∀ (i j : ℕ),
      getCell (kindLoop df ms l p).2 i j =
        if ∃ y ∈ l, ms.indexOf y = i ∧ nunique df y = 2 then 0
        else getCell p.2 i j := by
  intro l
  induction l with
  | nil =>
    intro p hp hl i j
    rw [show kindLoop df ms [] p = p from rfl, if_neg (by simp)]
  | cons y0 rest ih =>
    intro p hp hl i j
    rw [show kindLoop df ms (y0 :: rest) p =
      kindLoop df ms rest (kindStep df ms p y0) from rfl]
    have hl0 : y0 ∈ ms := hl y0 (List.mem_cons_self _ _)
    have hlr : ∀ y ∈ rest, y ∈ ms := fun y hy => hl y (List.mem_cons_of_mem _ hy)
    by_cases hk : nunique df y0 = 2
    · have hstep2 : (kindStep df ms p y0).2 =
          setRowZero p.2 (ms.indexOf y0) ms.length := kindStep_snd_of_bin hk
      have hlen2 : (kindStep df ms p y0).2.length = ms.length := by
        rw [hstep2, setRowZero, List.length_set, hp]
      rw [ih (kindStep df ms p y0) hlen2 hlr i j, hstep2]
      by_cases hidx : ms.indexOf y0 = i
      · have hcond : ∃ y ∈ y0 :: rest, ms.indexOf y = i ∧ nunique df y = 2 :=
          ⟨y0, List.mem_cons_self _ _, hidx, hk⟩
        rw [if_pos hcond]
        by_cases hrest : ∃ y ∈ rest, ms.indexOf y = i ∧ nunique df y = 2
        · rw [if_pos hrest]
        · rw [if_neg hrest, hidx]
          exact getCell_setRowZero_same _ _ (by
            rw [hp, ← hidx]
            exact List.indexOf_lt_length.mpr hl0)
      · have hcond : (∃ y ∈ rest, ms.indexOf y = i ∧ nunique df y = 2) ↔
            (∃ y ∈ y0 :: rest, ms.indexOf y = i ∧ nunique df y = 2) := by
          constructor
          · rintro ⟨y, hy, h1, h2⟩
            exact ⟨y, List.mem_cons_of_mem _ hy, h1, h2⟩
          · rintro ⟨y, hy, h1, h2⟩
            rcases List.mem_cons.mp hy with h | h
            · subst h
              exact absurd h1 hidx
            · exact ⟨y, h, h1, h2⟩
        rw [if_congr hcond rfl (getCell_setRowZero_ne _ _ hidx)]
    · have hstep2 : (kindStep df ms p y0).2 = p.2 := kindStep_snd_of_cont hk
      rw [ih (kindStep df ms p y0) (by rw [hstep2, hp]) hlr i j, hstep2]
      have hcond : (∃ y ∈ rest, ms.indexOf y = i ∧ nunique df y = 2) ↔
          (∃ y ∈ y0 :: rest, ms.indexOf y = i ∧ nunique df y = 2) := by
        constructor
        · rintro ⟨y, hy, h1, h2⟩
          exact ⟨y, List.mem_cons_of_mem _ hy, h1, h2⟩
        · rintro ⟨y, hy, h1, h2⟩
          rcases List.mem_cons.mp hy with h | h
          · subst h
            exact absurd h2 hk
          · exact ⟨y, h, h1, h2⟩
      rw [if_congr hcond rfl rfl]

/-- The kind loop keeps the Pearson mask square. -/
theorem matShape_kindLoop_fst (df : Df) (ms : List String) :
    ∀ (l : List String) (p : Mat × Mat), matShape ms.length p.1 →
      matShape ms.length (kindLoop df ms l p).1 := by
  intro l
  induction l with
  | nil => exact fun p hp => hp
  | cons y0 rest ih =>
    intro p hp
    rw [show kindLoop df ms (y0 :: rest) p =
      kindLoop df ms rest (kindStep df ms p y0) from rfl]
    refine ih (kindStep df ms p y0) ?_
    by_cases hk : nunique df y0 = 2
    · rw [kindStep_fst_of_bin hk]
      exact hp
    · rw [kindStep_fst_of_cont hk]
      exact matShape_setRowZero _ hp

/-- The kind loop keeps the odds-ratio mask square. -/
theorem matShape_kindLoop_snd (df : Df) (ms : List String) :
    ∀ (l : List String) (p : Mat × Mat), matShape ms.length p.2 →
      matShape ms.length (kindLoop df ms l p).2 := by
  intro l
  induction l with
  | nil => exact fun p hp => hp
  | cons y0 rest ih =>
    intro p hp
    rw [show kindLoop df ms (y0 :: rest) p =
      kindLoop df ms rest (kindStep df ms p y0) from rfl]
    refine ih (kindStep df ms p y0) ?_
    by_cases hk : nunique df y0 = 2
    · rw [kindStep_snd_of_bin hk]
      exact matShape_setRowZero _ hp
    · rw [kindStep_snd_of_cont hk]
      exact hp

/-- Row access into an elementwise matrix sum. -/
theorem rowOf_matAdd {a b : Mat} {i : ℕ} (ha : i < a.length)
    (hb : i < b.length) :
    rowOf (matAdd a b) i =
      List.zipWith (fun p q => p + q) (rowOf a i) (rowOf b i) := by
  have hga : rowOf a i = a.get ⟨i, ha⟩ := by
    rw [rowOf, List.get?_eq_get ha, Option.getD_some]
  have hgb : rowOf b i = b.get ⟨i, hb⟩ := by
    rw [rowOf, List.get?_eq_get hb, Option.getD_some]
  rw [rowOf, matAdd, List.get?_zipWith', List.get?_eq_get ha,
    List.get?_eq_get hb, hga, hgb]
  rfl

/-- Cell access into an elementwise sum of two rows. -/
theorem get_zipWith_add {r s : List ℚ} {j : ℕ} (hr : j < r.length)
    (hs : j < s.length) :
    ((List.zipWith (fun p q => p + q) r s).get? j).getD 0 =
      (r.get? j).getD 0 + (s.get? j).getD 0 := by
  rw [List.get?_zipWith', List.get?_eq_get hr, List.get?_eq_get hs]
  rfl

/-- Cell access into an elementwise matrix sum. -/
theorem getCell_matAdd {a b : Mat} {i j : ℕ} (ha : i < a.length)
    (hb : i < b.length) (hra : j < (rowOf a i).length)
    (hrb : j < (rowOf b i).length) :
    getCell (matAdd a b) i j = getCell a i j + getCell b i j := by
  rw [getCell, rowOf_matAdd ha hb, get_zipWith_add hra hrb]
  rfl

/-- The upper-triangle matrix is square. -/
theorem matShape_triuMat (n : ℕ) : matShape n (triuMat n) := by
  refine ⟨by rw [triuMat, List.length_map, List.length_range], fun k hk => ?_⟩
  rw [rowOf, triuMat, List.get?_map, List.get?_range hk]
  simp

/-- The upper-triangle matrix holds `1` on and above the diagonal, `0`
strictly below it. -/
theorem getCell_triuMat {n i j : ℕ} (hi : i < n) (hj : j < n) :
    getCell (triuMat n) i j = if i ≤ j then 1 else 0 := by
  rw [getCell, rowOf, triuMat, List.get?_map, List.get?_range hi]
  simp only [Option.map_some', Option.getD_some]
  rw [List.get?_map, List.get?_range hj]
  rfl

/-! ## Claim C8 -/

/-- Claim C8 (amended): with the triangular flag set, a mask cell is marked
masked exactly when its row's Kind does not match the mask's effect-size
type, or the cell lies in the non-strict upper triangle i ≤ j — the
diagonal included, because `np.triu` keeps the diagonal. -/
theorem calc_masks_tri_char (df : Df) (ms : List String) (hnd : ms.Nodup)
    (i j : ℕ) (y : String) (hy : ms.get? i = some y) (hj : j < ms.length) :
    (getCell (calc_masks df ms true).1 i j ≠ 0 ↔
      (nunique df y = 2 ∨ i ≤ j)) ∧
    (getCell (calc_masks df ms true).2 i j ≠ 0 ↔
      (¬ nunique df y = 2 ∨ i ≤ j)) := by
  have hi : i < ms.length := (List.get?_eq_some.mp hy).1
  have hymem : y ∈ ms := List.get?_mem hy
  have hyi : ms.indexOf y = i := by
    have hget : ms.get ⟨i, hi⟩ = y := (List.get?_eq_some.mp hy).2
    have h3 := List.get_indexOf hnd ⟨i, hi⟩
    rw [hget] at h3
    exact h3
  have hzy : ∀ z ∈ ms, ms.indexOf z = i → z = y := by
    intro z hz h1
    have h2 := List.indexOf_get? hz
    rw [h1, hy] at h2
    exact (Option.some.inj h2).symm
  have hcond1 : (∃ z ∈ ms, ms.indexOf z = i ∧ ¬ nunique df z = 2) ↔
      ¬ nunique df y = 2 := by
    constructor
    · rintro ⟨z, hz, h1, h2⟩
      exact (hzy z hz h1) ▸ h2
    · intro h2
      exact ⟨y, hymem, hyi, h2⟩
  have hcond2 : (∃ z ∈ ms, ms.indexOf z = i ∧ nunique df z = 2) ↔
      nunique df y = 2 := by
    constructor
    · rintro ⟨z, hz, h1, h2⟩
      exact (hzy z hz h1) ▸ h2
    · intro h2
      exact ⟨y, hymem, hyi, h2⟩
  have hshape1 := matShape_kindLoop_fst df ms ms
    (onesMat ms.length, onesMat ms.length) (matShape_onesMat ms.length)
  have hshape2 := matShape_kindLoop_snd df ms ms
    (onesMat ms.length, onesMat ms.length) (matShape_onesMat ms.length)
  have htris := matShape_triuMat ms.length
  have hK1 : getCell
      (kindLoop df ms ms (onesMat ms.length, onesMat ms.length)).1 i j =
      if nunique df y = 2 then 1 else 0 := by
    rw [kindLoop_fst_cell df ms ms (onesMat ms.length, onesMat ms.length)
      (matShape_onesMat ms.length).1 (fun z hz => hz) i j]
    by_cases hbin : nunique df y = 2
    · rw [if_neg (fun hc => (hcond1.mp hc) hbin), if_pos hbin,
        getCell_onesMat hi hj]
    · rw [if_pos (hcond1.mpr hbin), if_neg hbin]
  have hK2 : getCell
      (kindLoop df ms ms (onesMat ms.length, onesMat ms.length)).2 i j =
      if nunique df y = 2 then 0 else 1 := by
    rw [kindLoop_snd_cell df ms ms (onesMat ms.length, onesMat ms.length)
      (matShape_onesMat ms.length).1 (fun z hz => hz) i j]
    by_cases hbin : nunique df y = 2
    · rw [if_pos (hcond2.mpr hbin), if_pos hbin]
    · rw [if_neg (fun hc => hbin (hcond2.mp hc)), if_neg hbin,
        getCell_onesMat hi hj]
  have htri : getCell (triuMat ms.length) i j = if i ≤ j then 1 else 0 :=
    getCell_triuMat hi hj
  have hfst : getCell (calc_masks df ms true).1 i j =
      (if nunique df y = 2 then 1 else 0) + (if i ≤ j then 1 else 0) := by
    have he : (calc_masks df ms true).1 =
        matAdd (kindLoop df ms ms (onesMat ms.length, onesMat ms.length)).1
          (triuMat ms.length) := rfl
    rw [he, getCell_matAdd (by rw [hshape1.1]; exact hi)
      (by rw [htris.1]; exact hi) (by rw [hshape1.2 i hi]; exact hj)
      (by rw [htris.2 i hi]; exact hj), hK1, htri]
  have hsnd : getCell (calc_masks df ms true).2 i j =
      (if nunique df y = 2 then 0 else 1) + (if i ≤ j then 1 else 0) := by
    have he : (calc_masks df ms true).2 =
        matAdd (kindLoop df ms ms (onesMat ms.length, onesMat ms.length)).2
          (triuMat ms.length) := rfl
    rw [he, getCell_matAdd (by rw [hshape2.1]; exact hi)
      (by rw [htris.1]; exact hi) (by rw [hshape2.2 i hi]; exact hj)
      (by rw [htris.2 i hi]; exact hj), hK2, htri]
  constructor
  · rw [hfst]
    by_cases h1 : nunique df y = 2 <;> by_cases h2 : i ≤ j <;>
      norm_num [h1, h2]
  · rw [hsnd]
    by_cases h1 : nunique df y = 2 <;> by_cases h2 : i ≤ j <;>
      norm_num [h1, h2]

/-- Counterexample to claim C8 as stated: the diagonal cell (0,0) of the
Pearson mask belongs to the Continuous row `A` (so its Kind matches) and
satisfies i ≥ j, yet the triangle rule does mask it, because `np.triu`
includes the diagonal. -/
theorem calc_masks_triu_counterexample :
    getCell (calc_masks dfAB msAB true).1 0 0 ≠ 0 ∧
    ¬ nunique dfAB "A" = 2 :=
  ⟨by with_unfolding_all decide, by decide⟩

/-- Witness for the amended C8 at the strictly-lower cell (1,0) of the
example run. -/
theorem calc_masks_tri_char_witness :
    (getCell (calc_masks dfAB msAB true).1 1 0 ≠ 0 ↔
      (nunique dfAB "B" = 2 ∨ 1 ≤ 0)) ∧
    (getCell (calc_masks dfAB msAB true).2 1 0 ≠ 0 ↔
      (¬ nunique dfAB "B" = 2 ∨ 1 ≤ 0)) :=
  calc_masks_tri_char dfAB msAB (by decide) 1 0 "B" rfl (by decide)
